import Mathlib

/-!
Verification of the Pressurize repository: a shallow embedding of the
frontend streaming client (src/frontend/src/api/client.ts), the simulation
form (src/frontend/src/components/SimulationForm.vue), the composition
editor (gas composition modal), the IndexedDB history layer, and
spec-modelled physics for the flow-regime calculator and property provider
whose backend sources are not present in the repository snapshot.

JS strings are embedded as `List Char`; JS numbers as `ℚ` where they are
only carried through, and as `ℝ` in the spec-modelled physics. Thrown
exceptions that are caught become `Option`; thrown exceptions that escape
become an explicit outcome flag.
-/

namespace Pressurize

/-! ## SSE message splitting (client.ts, streamSimulation)

`streamSimulation` accumulates decoded text in `buffer`, splits it on
blank lines (`buffer.split` with the two-newline separator), keeps the
last piece as the new buffer and processes the other pieces.  `splitBlank`
embeds the JS `split` on the fixed two-newline separator: leftmost,
non-overlapping, keeping empty pieces. -/

/-- Cons a character onto the first piece of a split result. -/
def consHead (c : Char) : List (List Char) → List (List Char)
  | [] => [[c]]
  | p :: ps => (c :: p) :: ps

def splitBlank : List Char → List (List Char)
  | [] => [[]]
  | [c] => [[c]]
  | c :: d :: rest =>
    if c = '\n' ∧ d = '\n' then [] :: splitBlank rest
    else consHead c (splitBlank (d :: rest))

theorem consHead_ne_nil (c : Char) (l : List (List Char)) : consHead c l ≠ [] := by
  cases l <;> simp [consHead]

theorem splitBlank_ne_nil (l : List Char) : splitBlank l ≠ [] := by
  rw [splitBlank.eq_def]
  split
  · simp
  · simp
  · split
    · simp
    · exact consHead_ne_nil _ _

theorem splitBlank_nil : splitBlank [] = [[]] := by
  simp [splitBlank]

theorem splitBlank_one (c : Char) : splitBlank [c] = [[c]] := by
  simp [splitBlank]

/-- Unconditional unfolding equation for the cons-cons case. -/
theorem splitBlank_cons_cons (c d : Char) (rest : List Char) :
    splitBlank (c :: d :: rest) =
      if c = '\n' ∧ d = '\n' then [] :: splitBlank rest
      else consHead c (splitBlank (d :: rest)) := by
  simp only [splitBlank]

theorem splitBlank_eq_singleton :
    ∀ (l p : List Char), splitBlank l = [p] → p = l
  | [], p, h => by
    rw [splitBlank_nil] at h
    exact ((List.cons.inj h).1).symm
  | [c], p, h => by
    rw [splitBlank_one] at h
    exact ((List.cons.inj h).1).symm
  | c :: d :: rest, p, h => by
    rw [splitBlank_cons_cons] at h
    by_cases hnn : c = '\n' ∧ d = '\n'
    · rw [if_pos hnn] at h
      exact absurd (List.cons.inj h).2 (splitBlank_ne_nil rest)
    · rw [if_neg hnn] at h
      cases hq : splitBlank (d :: rest) with
      | nil => exact absurd hq (splitBlank_ne_nil _)
      | cons q qs =>
        rw [hq] at h
        simp only [consHead] at h
        obtain ⟨h1, h2⟩ := List.cons.inj h
        subst h2
        have hs := splitBlank_eq_singleton (d :: rest) q hq
        subst hs
        exact h1.symm

/-- The key compositionality of JS split on the blank-line separator:
splitting `a ++ b` is the same as splitting `a`, keeping all but the last
piece, and re-splitting the last (incomplete) piece glued to `b`.  This is
exactly the buffering discipline of `streamSimulation`. -/
theorem splitBlank_append :
    ∀ (a b : List Char), splitBlank (a ++ b) =
      (splitBlank a).dropLast ++ splitBlank ((splitBlank a).getLastD [] ++ b)
  | [], b => by simp [splitBlank_nil]
  | [c], b => by simp [splitBlank_one]
  | c :: d :: rest, b => by
    simp only [List.cons_append]
    rw [splitBlank_cons_cons c d (rest ++ b), splitBlank_cons_cons c d rest]
    by_cases hnn : c = '\n' ∧ d = '\n'
    · simp only [if_pos hnn]
      have hrec := splitBlank_append rest b
      cases hp : splitBlank rest with
      | nil => exact absurd hp (splitBlank_ne_nil rest)
      | cons p ps =>
        rw [hrec, hp]
        simp only [List.dropLast_cons₂, List.getLastD_cons, List.cons_append,
          List.nil_append]
    · simp only [if_neg hnn]
      have hrec := splitBlank_append (d :: rest) b
      cases hq : splitBlank (d :: rest) with
      | nil => exact absurd hq (splitBlank_ne_nil _)
      | cons q qs =>
        have hdb : d :: (rest ++ b) = (d :: rest) ++ b := by
          simp only [List.cons_append]
        rw [hdb, hrec, hq]
        cases qs with
        | nil =>
          have hsing := splitBlank_eq_singleton _ _ hq
          subst hsing
          simp only [consHead, List.dropLast_single, List.getLastD_cons,
            List.getLastD_nil, List.nil_append, List.cons_append]
          rw [splitBlank_cons_cons c d (rest ++ b), if_neg hnn]
          rfl
        | cons q2 qs2 =>
          simp only [consHead, List.dropLast_cons₂, List.getLastD_cons,
            List.cons_append]

/-- The last piece of a split never contains a separator: re-splitting it
yields just itself.  This is the buffer invariant of `streamSimulation`. -/
theorem splitBlank_getLastD :
    ∀ (l : List Char),
      splitBlank ((splitBlank l).getLastD []) = [(splitBlank l).getLastD []]
  | [] => by simp [splitBlank_nil]
  | [c] => by simp [splitBlank_one]
  | c :: d :: rest => by
    rw [splitBlank_cons_cons]
    by_cases hnn : c = '\n' ∧ d = '\n'
    · rw [if_pos hnn]
      cases hp : splitBlank rest with
      | nil => exact absurd hp (splitBlank_ne_nil rest)
      | cons p ps =>
        have := splitBlank_getLastD rest
        rw [hp] at this
        simpa [List.getLastD_cons] using this
    · rw [if_neg hnn]
      cases hq : splitBlank (d :: rest) with
      | nil => exact absurd hq (splitBlank_ne_nil _)
      | cons q qs =>
        cases qs with
        | nil =>
          have hs := splitBlank_eq_singleton _ _ hq
          subst hs
          simp only [consHead, List.getLastD_cons, List.getLastD_nil]
          rw [splitBlank_cons_cons, if_neg hnn, hq]
          rfl
        | cons q2 qs2 =>
          have := splitBlank_getLastD (d :: rest)
          rw [hq] at this
          simpa [consHead, List.getLastD_cons] using this

/-! ## Streaming dispatch (client.ts, streamSimulation lines 183-216)

A parsed SSE message is embedded as a record carrying every field the
dispatcher may read; its `type` field is an arbitrary string, as in the
parsed JSON.  `JSON.parse` (external) is a parameter returning `Option`;
the surrounding try/catch that swallows parse errors is the `none` branch.
Callback invocations are recorded as an ordered event list. -/

def tChunk : String := "chunk"
def tComplete : String := "complete"
def tError : String := "error"

structure RawMsg where
  type : String
  rows : List String
  total_rows : Int
  peak_flow : ℚ
  final_pressure : ℚ
  equilibrium_time : ℚ
  total_mass : ℚ
  completed : Bool
  message : String
deriving DecidableEq

inductive CallbackEvent
  | onChunk (rows : List String) (totalRows : Int)
  | onComplete (peakFlow finalPressure equilibriumTime totalMass : ℚ)
      (completed : Bool)
  | onError (message : String)
deriving DecidableEq

/-- client.ts lines 188-200: dispatch one parsed message on its type. -/
def dispatchMsg (m : RawMsg) : List CallbackEvent :=
  if m.type = tChunk then [.onChunk m.rows m.total_rows]
  else if m.type = tComplete then
    [.onComplete m.peak_flow m.final_pressure m.equilibrium_time
      m.total_mass m.completed]
  else if m.type = tError then [.onError m.message]
  else []

def sseDataTag : List Char := "data: ".toList

/-- client.ts lines 184-204: one line of a completed SSE block; the
`data: ` check, the slice(6), the parse and the catch-and-continue. -/
def handleLine (parse : List Char → Option RawMsg) (line : List Char) :
    List CallbackEvent :=
  if sseDataTag.isPrefixOf line then
    match parse (line.drop 6) with
    | some m => dispatchMsg m
    | none => []
  else []

/-- client.ts lines 177-181: append the decoded chunk to the buffer, split
on blank lines, process all complete blocks, keep the last piece. -/
def sseStep (buf chunk : List Char) : List (List Char) × List Char :=
  let parts := splitBlank (buf ++ chunk)
  (parts.dropLast, parts.getLastD [])

/-- The read loop of streamSimulation restricted to successful reads:
returns the processed blocks (in order) and the final buffer. -/
def sseRun : List Char → List (List Char) → List (List Char) × List Char
  | buf, [] => ([], buf)
  | buf, chunk :: rest =>
    let step := sseStep buf chunk
    let next := sseRun step.2 rest
    (step.1 ++ next.1, next.2)

theorem dropLast_append_of_ne_nil {α : Type} (xs : List α) {ys : List α}
    (h : ys ≠ []) : (xs ++ ys).dropLast = xs ++ ys.dropLast := by
  induction xs with
  | nil => simp
  | cons x xs ih =>
    cases hxy : xs ++ ys with
    | nil => exact absurd (List.append_eq_nil.mp hxy).2 h
    | cons z zs =>
      rw [List.cons_append, hxy, List.dropLast_cons₂, ← hxy, ih,
        List.cons_append]

theorem getLastD_append_of_ne_nil {α : Type} (xs : List α) {ys : List α}
    (h : ys ≠ []) (d : α) : (xs ++ ys).getLastD d = ys.getLastD d := by
  induction xs generalizing d with
  | nil => simp
  | cons x xs ih =>
    rw [List.cons_append, List.getLastD_cons, ih]
    cases ys with
    | nil => exact absurd rfl h
    | cons y ys => rw [List.getLastD_cons, List.getLastD_cons]

/-- Running the read loop from a separator-free buffer processes exactly
the complete blocks of the concatenated body, in order. -/
theorem sseRun_eq :
    ∀ (chunks : List (List Char)) (buf : List Char),
      splitBlank buf = [buf] →
      sseRun buf chunks =
        ((splitBlank (buf ++ chunks.flatten)).dropLast,
         (splitBlank (buf ++ chunks.flatten)).getLastD [])
  | [], buf, h => by simp [sseRun, h]
  | c :: rest, buf, h => by
    have hlast := splitBlank_getLastD (buf ++ c)
    have hrec := sseRun_eq rest ((splitBlank (buf ++ c)).getLastD []) hlast
    have hsplit := splitBlank_append (buf ++ c) rest.flatten
    have hne := splitBlank_ne_nil
      ((splitBlank (buf ++ c)).getLastD [] ++ rest.flatten)
    simp only [sseRun, sseStep, hrec]
    rw [List.flatten_cons, ← List.append_assoc, hsplit,
      dropLast_append_of_ne_nil _ hne, getLastD_append_of_ne_nil _ hne]

/-! ## Cancellation (client.ts lines 172-216)

A read either delivers decoded text or rejects with an AbortError (the
fetch was cancelled via the AbortSignal).  The catch clause re-throws the
AbortError, so the loop stops and no further callback runs; the Bool in
the result records that the AbortError escaped to the caller. -/

inductive ReadEv
  | data (s : List Char)
  | aborted
deriving DecidableEq

def streamRun (parse : List Char → Option RawMsg) :
    List Char → List ReadEv → List CallbackEvent × Bool
  | _, [] => ([], false)
  | buf, .data s :: rest =>
    let parts := splitBlank (buf ++ s)
    let evs := (parts.dropLast.map (handleLine parse)).flatten
    let next := streamRun parse (parts.getLastD []) rest
    (evs ++ next.1, next.2)
  | _, .aborted :: _ => ([], true)

/-- An aborted run invokes exactly the callbacks of the blocks completed
before the abort, and propagates the abort. -/
theorem streamRun_abort (parse : List Char → Option RawMsg) :
    ∀ (pre : List (List Char)) (buf : List Char) (post : List ReadEv),
      streamRun parse buf (pre.map ReadEv.data ++ ReadEv.aborted :: post) =
        (((sseRun buf pre).1.map (handleLine parse)).flatten, true)
  | [], buf, post => by simp [streamRun, sseRun]
  | c :: rest, buf, post => by
    have hrec := streamRun_abort parse rest
      ((splitBlank (buf ++ c)).getLastD []) post
    simp only [List.map_cons, List.cons_append, streamRun, sseRun,
      sseStep, List.append_eq]
    rw [hrec, List.map_append, List.flatten_append]

def sEmpty : String := ""

/-- Claim C2: every parsed streaming message is dispatched to exactly one
callback selected by its type field: a chunk message invokes onChunk with
its rows and total_rows, a complete message invokes onComplete with
exactly the five KPI fields, an error message invokes onError with its
message, and a message of any other type invokes no callback. -/
theorem claim2_dispatch_by_type (m : RawMsg) :
    (m.type = tChunk → dispatchMsg m = [.onChunk m.rows m.total_rows]) ∧
    (m.type = tComplete →
      dispatchMsg m = [.onComplete m.peak_flow m.final_pressure
        m.equilibrium_time m.total_mass m.completed]) ∧
    (m.type = tError → dispatchMsg m = [.onError m.message]) ∧
    (m.type ≠ tChunk → m.type ≠ tComplete → m.type ≠ tError →
      dispatchMsg m = []) ∧
    (dispatchMsg m).length ≤ 1 := by
  refine ⟨?_, ?_, ?_, ?_, ?_⟩
  · intro h
    simp [dispatchMsg, h]
  · intro h
    simp [dispatchMsg, h, tChunk, tComplete]
  · intro h
    simp [dispatchMsg, h, tChunk, tComplete, tError]
  · intro h1 h2 h3
    simp [dispatchMsg, h1, h2, h3]
  · simp only [dispatchMsg]
    split
    · simp
    · split
      · simp
      · split <;> simp

/-- Witness for C2 at a concrete complete-typed message. -/
theorem claim2_dispatch_by_type_witness :
    dispatchMsg ⟨tComplete, [], 0, 1, 2, 3, 4, true, sEmpty⟩ =
      [.onComplete 1 2 3 4 true] :=
  (claim2_dispatch_by_type _).2.1 rfl

/-- Claim C3: for every partition of the response body into read chunks,
the loop processes exactly the complete blank-line-terminated blocks of
the whole body, in stream order, each exactly once (messages split across
reads are held in the buffer), keeps the trailing incomplete piece as the
final buffer, and dispatches each processed line through one callback
lookup. -/
theorem claim3_partition_independent (parse : List Char → Option RawMsg)
    (chunks : List (List Char)) :
    (sseRun [] chunks).1 = (splitBlank chunks.flatten).dropLast ∧
    (sseRun [] chunks).2 = (splitBlank chunks.flatten).getLastD [] ∧
    ((sseRun [] chunks).1.map (handleLine parse)).flatten =
      (((splitBlank chunks.flatten).dropLast).map
        (handleLine parse)).flatten := by
  have h := sseRun_eq chunks [] splitBlank_nil
  rw [h]
  simp

/-- Claim C4: when the AbortSignal fires during streaming, the read loop
stops and the AbortError is re-thrown (the Bool outcome is true), and the
callbacks invoked are exactly those of the blocks fully received before
the abort — so a run cancelled before the complete message arrives never
invokes onComplete with a KpiSummary. -/
theorem claim4_abort_rethrow (parse : List Char → Option RawMsg)
    (pre : List (List Char)) (post : List ReadEv) :
    streamRun parse [] (pre.map ReadEv.data ++ ReadEv.aborted :: post) =
      ((((splitBlank pre.flatten).dropLast).map (handleLine parse)).flatten,
        true) := by
  rw [streamRun_abort parse pre [] post, sseRun_eq pre [] splitBlank_nil]
  simp

/-- Claim C10: a data-prefixed line whose payload fails to parse invokes
no callback (the parse error is caught), and every other line of the same
stream is dispatched exactly as if the malformed line were absent. -/
theorem claim10_malformed_skipped (parse : List Char → Option RawMsg)
    (pre post : List (List Char)) (bad : List Char)
    (hbad : parse (bad.drop 6) = none) :
    ((pre ++ bad :: post).map (handleLine parse)).flatten =
      (pre.map (handleLine parse)).flatten ++
        (post.map (handleLine parse)).flatten ∧
    handleLine parse bad = [] := by
  have hb : handleLine parse bad = [] := by
    unfold handleLine
    split
    · rw [hbad]
    · rfl
  refine ⟨?_, hb⟩
  rw [List.map_append, List.flatten_append, List.map_cons,
    List.flatten_cons, hb, List.nil_append]

/-- A concrete stand-in for JSON.parse accepting only the payload 1. -/
def parseDemo : List Char → Option RawMsg :=
  fun l =>
    if l = ['1'] then some ⟨tChunk, [], 5, 0, 0, 0, 0, false, sEmpty⟩
    else none

def lineGood : List Char := "data: 1".toList
def lineBad : List Char := "data: x".toList

/-- Witness for C10: a malformed line between two well-formed ones. -/
theorem claim10_malformed_skipped_witness :
    (([lineGood] ++ lineBad :: [lineGood]).map
        (handleLine parseDemo)).flatten =
      ([lineGood].map (handleLine parseDemo)).flatten ++
        ([lineGood].map (handleLine parseDemo)).flatten ∧
    handleLine parseDemo lineBad = [] :=
  claim10_malformed_skipped parseDemo [lineGood] [lineGood] lineBad
    (by decide)

/-! ## Valve action and opening mode (SimulationForm.vue)

The form never submits the fixed-instant profile together with the
closing action, but it does so by UI construction, not by validation. -/

def sOpen : String := "open"
def sClose : String := "close"
def sLinear : String := "linear"
def sExponential : String := "exponential"
def sQuickActing : String := "quick_acting"
def sFixed : String := "fixed"

/-- SimulationForm.vue lines 352-360: when valve_action switches to close
while opening_mode is fixed, the watcher resets opening_mode to linear. -/
def valveActionWatch (action openingMode : String) : String :=
  if action = sClose ∧ openingMode = sFixed then sLinear else openingMode

/-- SimulationForm.vue lines 165-172: the opening-mode select options;
the Fixed (Instant) option is rendered only when valve_action is open. -/
def openingModeOptions (action : String) : List String :=
  [sLinear, sExponential, sQuickActing] ++
    if action = sOpen then [sFixed] else []

/-- Claim C1 counterexample: switching the valve action to close while the
fixed-instant profile is selected silently defaults the profile to linear
instead of raising any validation error, refuting the claim that the
combination is rejected and never silently defaulted. -/
theorem claim1_counterexample :
    valveActionWatch sClose sFixed = sLinear ∧ sLinear ≠ sFixed := by
  constructor
  · decide
  · decide

/-- Claim C1 amended: the fixed-instant-with-closing combination is
prevented in the form UI rather than rejected by a validator: the select
omits the fixed option while the action is close, and the watcher
silently resets a selected fixed mode to linear when the action switches
to close, leaving every other mode unchanged; no ConfigError is raised. -/
theorem claim1_amended (mode : String) :
    valveActionWatch sClose mode = (if mode = sFixed then sLinear else mode) ∧
    valveActionWatch sOpen mode = mode ∧
    sFixed ∉ openingModeOptions sClose ∧
    sFixed ∈ openingModeOptions sOpen := by
  refine ⟨?_, ?_, by decide, by decide⟩
  · unfold valveActionWatch
    by_cases h : mode = sFixed <;> simp [h]
  · unfold valveActionWatch
    simp [sOpen, sClose]

/-! ## Composition editor (Gas Composition Editor modal)

Mole fractions are JS numbers, embedded as rationals; `toFixed(4)` is
rounding to four decimal places.  `normalize` divides each fraction by
the total, rounds, and adds any residual above 1e-6 to the largest entry
(the JS reduce keeps `prev` only on strict `>`, so ties pick the last
maximum; the mutation adds the residual to that entry). -/

def roundTo4 (q : ℚ) : ℚ := (round (q * 10000) : ℤ) / 10000

def totalFraction (l : List ℚ) : ℚ := l.sum

/-- The isValid gate of the editor: total within 0.001 of 1 and a
non-empty mixture. -/
def isValidMix (l : List ℚ) : Bool :=
  decide (|totalFraction l - 1| < 1 / 1000 ∧ 0 < l.length)

def maxFrac : List ℚ → ℚ
  | [] => 0
  | [x] => x
  | x :: y :: rest => max x (maxFrac (y :: rest))

/-- Add `d` to the last maximal element (the element the JS reduce picks). -/
def bumpLastMax : List ℚ → ℚ → List ℚ
  | [], _ => []
  | [x], d => [x + d]
  | x :: y :: rest, d =>
    if maxFrac (y :: rest) < x then (x + d) :: y :: rest
    else x :: bumpLastMax (y :: rest) d

theorem bumpLastMax_sum :
    ∀ (l : List ℚ) (d : ℚ), l ≠ [] → (bumpLastMax l d).sum = l.sum + d
  | [], _, h => absurd rfl h
  | [x], d, _ => by simp [bumpLastMax]
  | x :: y :: rest, d, _ => by
    rw [bumpLastMax]
    split
    · simp [List.sum_cons]
      ring
    · have := bumpLastMax_sum (y :: rest) d (by simp)
      simp [List.sum_cons, this]
      ring

theorem bumpLastMax_length :
    ∀ (l : List ℚ) (d : ℚ), (bumpLastMax l d).length = l.length
  | [], _ => rfl
  | [x], d => rfl
  | x :: y :: rest, d => by
    rw [bumpLastMax]
    split
    · rfl
    · have := bumpLastMax_length (y :: rest) d
      simp only [List.length_cons] at *
      omega

/-- normalize() of the composition editor. -/
def normalizeMix (l : List ℚ) : List ℚ :=
  let total := totalFraction l
  if total = 0 then l
  else
    let r := l.map (fun x => roundTo4 (x / total))
    let d := 1 - totalFraction r
    if 1 / 1000000 < |d| then bumpLastMax r d else r

/-- Claim C8: for a mixture with nonzero total, normalize leaves the total
within 1e-6 of 1 (exactly 1 when the residual correction fires), hence the
isValid gate accepts the result; for a zero total it changes nothing. -/
theorem claim8_normalize (l : List ℚ) :
    (totalFraction l = 0 → normalizeMix l = l) ∧
    (totalFraction l ≠ 0 →
      |totalFraction (normalizeMix l) - 1| ≤ 1 / 1000000 ∧
      isValidMix (normalizeMix l) = true) := by
  constructor
  · intro h
    simp [normalizeMix, h]
  · intro h
    have hne : l ≠ [] := by
      intro hl
      exact h (by simp [hl, totalFraction])
    have hrne : l.map (fun x => roundTo4 (x / totalFraction l)) ≠ [] := by
      simpa using hne
    have hlen : 0 < (l.map (fun x => roundTo4 (x / totalFraction l))).length := by
      simpa [List.length_pos] using hrne
    unfold normalizeMix
    rw [if_neg h]
    set r := l.map (fun x => roundTo4 (x / totalFraction l)) with hr
    by_cases hd : 1 / 1000000 < |1 - totalFraction r|
    · rw [if_pos hd]
      have hsum : (bumpLastMax r (1 - totalFraction r)).sum =
          r.sum + (1 - totalFraction r) := bumpLastMax_sum r _ hrne
      have htot : totalFraction (bumpLastMax r (1 - totalFraction r)) = 1 := by
        unfold totalFraction at *
        rw [hsum]
        ring
      refine ⟨by rw [htot]; simp, ?_⟩
      rw [isValidMix, htot, bumpLastMax_length]
      simp only [decide_eq_true_eq]
      constructor
      · norm_num
      · exact hlen
    · rw [if_neg hd]
      push_neg at hd
      have habs : |totalFraction r - 1| ≤ 1 / 1000000 := by
        rw [abs_sub_comm]
        exact hd
      refine ⟨habs, ?_⟩
      rw [isValidMix]
      simp only [decide_eq_true_eq]
      refine ⟨lt_of_le_of_lt habs (by norm_num), hlen⟩

/-- Witness for C8 at the concrete mixture with fractions 0.2 and 0.3. -/
theorem claim8_normalize_witness :
    |totalFraction (normalizeMix [1/5, 3/10]) - 1| ≤ 1 / 1000000 ∧
    isValidMix (normalizeMix [1/5, 3/10]) = true :=
  (claim8_normalize [1/5, 3/10]).2 (by norm_num [totalFraction])

/-! ## Simulation history (client.ts, Dexie layer, lines 273-336)

The Dexie table is a list of entries with auto-increment primary key
`id` and an indexed `timestamp`.  `orderBy(timestamp)` iterates the index
ascending — duplicates ordered by primary key — and `.reverse()` flips
it.  `saveSimulation` appends a fresh entry, then deletes by id everything
past the ten newest; `getSimulationHistory` returns the sorted view. -/

structure HEntry where
  id : Nat
  timestamp : Int
deriving DecidableEq

/-- IndexedDB iteration order on the timestamp index: ascending by
timestamp, ties by primary key. -/
def histLe (a b : HEntry) : Prop :=
  a.timestamp < b.timestamp ∨ (a.timestamp = b.timestamp ∧ a.id ≤ b.id)

instance : DecidableRel histLe := fun a b =>
  inferInstanceAs (Decidable (a.timestamp < b.timestamp ∨
    (a.timestamp = b.timestamp ∧ a.id ≤ b.id)))

instance : IsTotal HEntry histLe :=
  ⟨by intro a b; unfold histLe; omega⟩

instance : IsTrans HEntry histLe :=
  ⟨by intro a b c hab hbc; unfold histLe at *; omega⟩

/-- client.ts lines 327-336: all history, newest first. -/
def getSimulationHistory (db : List HEntry) : List HEntry :=
  (List.insertionSort histLe db).reverse

/-- client.ts lines 273-322: add the new entry, then bulk-delete every
entry beyond the ten newest (by id). -/
def saveSimulation (db : List HEntry) (nextId : Nat) (now : Int) :
    List HEntry :=
  let db2 := db ++ [⟨nextId, now⟩]
  let allEntries := getSimulationHistory db2
  if 10 < allEntries.length then
    let idsToDelete := (allEntries.drop 10).map (·.id)
    db2.filter (fun e => decide (e.id ∉ idsToDelete))
  else db2

theorem getSimulationHistory_perm (l : List HEntry) :
    (getSimulationHistory l).Perm l :=
  (List.reverse_perm _).trans (List.perm_insertionSort histLe l)

theorem getSimulationHistory_sorted (l : List HEntry) :
    List.Pairwise (fun a b => histLe b a) (getSimulationHistory l) := by
  have hs := List.sorted_insertionSort histLe l
  unfold getSimulationHistory
  exact List.pairwise_reverse.mpr hs

/-- Claim C9: after every save the persisted history holds at most ten
entries, any removed entry is no newer (by timestamp) than any kept one,
and the history query returns exactly the stored entries ordered
newest-first by timestamp.  The hypotheses state the Dexie auto-increment
invariant: stored ids are distinct and the fresh id is larger. -/
theorem claim9_history (db : List HEntry) (nextId : Nat) (now : Int)
    (hnodup : (db.map (·.id)).Nodup)
    (hfresh : ∀ e ∈ db, e.id < nextId) :
    (saveSimulation db nextId now).length ≤ 10 ∧
    (∀ e ∈ db ++ [⟨nextId, now⟩], e ∉ saveSimulation db nextId now →
      ∀ f ∈ saveSimulation db nextId now, e.timestamp ≤ f.timestamp) ∧
    (getSimulationHistory db).Perm db ∧
    List.Pairwise (fun a b => b.timestamp ≤ a.timestamp)
      (getSimulationHistory db) := by
  have hdesc : List.Pairwise (fun a b => b.timestamp ≤ a.timestamp)
      (getSimulationHistory db) :=
    (getSimulationHistory_sorted db).imp (fun hab => by
      unfold histLe at hab; omega)
  set e0 : HEntry := ⟨nextId, now⟩ with he0
  set db2 : List HEntry := db ++ [e0] with hdb2
  have hnodup2 : (db2.map (·.id)).Nodup := by
    rw [hdb2, List.map_append, List.nodup_append]
    refine ⟨hnodup, by simp, ?_⟩
    intro x hx hx2
    obtain ⟨e, he, heid⟩ := List.mem_map.mp hx
    have hxe : x = e0.id := by simpa using hx2
    have hlt := hfresh e he
    rw [he0] at hxe
    simp only at heid hxe
    omega
  have hpermA : (getSimulationHistory db2).Perm db2 :=
    getSimulationHistory_perm db2
  have hsortA := getSimulationHistory_sorted db2
  set A : List HEntry := getSimulationHistory db2 with hA
  have hnodupA : (A.map (·.id)).Nodup :=
    (List.Perm.nodup_iff (hpermA.map _)).mpr hnodup2
  have hsave : saveSimulation db nextId now =
      if 10 < A.length then
        db2.filter (fun e => decide (e.id ∉ (A.drop 10).map (·.id)))
      else db2 := rfl
  rw [hsave]
  by_cases h10 : 10 < A.length
  · rw [if_pos h10]
    set ids : List Nat := (A.drop 10).map (·.id) with hids
    set p : HEntry → Bool := fun e => decide (e.id ∉ ids) with hp
    have hATD : A.take 10 ++ A.drop 10 = A := List.take_append_drop 10 A
    have hnodupTD :
        ((A.take 10).map (·.id) ++ (A.drop 10).map (·.id)).Nodup := by
      rw [← List.map_append, hATD]
      exact hnodupA
    have hdisj := (List.nodup_append.mp hnodupTD).2.2
    have hkeepT : ∀ e ∈ A.take 10, p e = true := by
      intro e he
      rw [hp]
      simp only [decide_eq_true_eq]
      intro hmem
      exact hdisj (List.mem_map_of_mem _ he) hmem
    have hdropDel : ∀ e ∈ A.drop 10, p e = false := by
      intro e he
      have hm : e.id ∈ ids := by
        rw [hids]
        exact List.mem_map_of_mem _ he
      simp [hp, hm]
    have hfilterA : A.filter p = A.take 10 := by
      conv_lhs => rw [← hATD]
      have hnil : (A.drop 10).filter p = [] := by
        rw [List.filter_eq_nil_iff]
        intro a ha
        rw [hdropDel a ha]
        simp
      rw [List.filter_append, List.filter_eq_self.mpr hkeepT, hnil,
        List.append_nil]
    have hpermF : (db2.filter p).Perm (A.take 10) := by
      rw [← hfilterA]
      exact hpermA.symm.filter p
    have hlenF : (db2.filter p).length = 10 := by
      rw [hpermF.length_eq, List.length_take, min_eq_left (le_of_lt h10)]
    refine ⟨by omega, ?_, getSimulationHistory_perm db, hdesc⟩
    intro e he hnot f hf
    have hfT : f ∈ A.take 10 := hpermF.subset hf
    have heA : e ∈ A := (hpermA.mem_iff).mpr he
    have hsort2 := hsortA
    rw [← hATD] at hsort2
    rcases List.mem_append.mp (hATD ▸ heA) with heT | heD
    · exact absurd (List.mem_filter.mpr ⟨he, hkeepT e heT⟩) hnot
    · have hcross := (List.pairwise_append.mp hsort2).2.2
      have hle : histLe e f := hcross f hfT e heD
      unfold histLe at hle
      omega
  · rw [if_neg h10]
    have hlen2 := hpermA.length_eq
    refine ⟨by omega, ?_, getSimulationHistory_perm db, hdesc⟩
    intro e he hnot f hf
    exact absurd he hnot

/-- Witness for C9 on a concrete two-entry store. -/
theorem claim9_history_witness :
    (saveSimulation [⟨0, 5⟩, ⟨1, 3⟩] 2 9).length ≤ 10 ∧
    (∀ e ∈ [⟨0, 5⟩, ⟨1, 3⟩] ++ [⟨2, 9⟩],
      e ∉ saveSimulation [⟨0, 5⟩, ⟨1, 3⟩] 2 9 →
      ∀ f ∈ saveSimulation [⟨0, 5⟩, ⟨1, 3⟩] 2 9,
        e.timestamp ≤ f.timestamp) ∧
    (getSimulationHistory [⟨0, 5⟩, ⟨1, 3⟩]).Perm [⟨0, 5⟩, ⟨1, 3⟩] ∧
    List.Pairwise (fun a b => b.timestamp ≤ a.timestamp)
      (getSimulationHistory [⟨0, 5⟩, ⟨1, 3⟩]) :=
  claim9_history [⟨0, 5⟩, ⟨1, 3⟩] 2 9 (by decide) (by decide)

/-! ## Flow regime calculator — spec-modelled

The backend physics package is not part of this repository snapshot (only
its README, API list and documentation are present), so the calculator is
modelled from spec section 4.2 and the flow equations in the repository
documentation.  Real-gas quantities are real numbers; `^` below is the
real power. -/

noncomputable section

/-- Universal gas constant, J per mol K, as in the repository docs. -/
def Rgas : ℝ := 8.31446

/-- Modelled from the spec: critical pressure ratio separating choked
from subsonic flow; missing source: the backend FlowRegimeCalculator. -/
def rCritical (k : ℝ) : ℝ := (2 / (k + 1)) ^ (k / (k - 1))

def sChoked : String := "choked"
def sSubsonic : String := "subsonic"
def sNone : String := "none"

structure FlowResult where
  mdot : ℝ
  regime : String

/-- Modelled from the spec (section 4.2): evaluate the instantaneous
orifice flow.  Reverse pressure difference reports zero flow and regime
none; zero effective area short-circuits to zero flow before the square
root; the subsonic bracket is clamped at zero. -/
def evaluateFlow (Cd A Pup Pdown Tup Z k M : ℝ) : FlowResult :=
  if Pup < Pdown then ⟨0, sNone⟩
  else if Pdown / Pup ≤ rCritical k then
    ⟨if A = 0 then 0 else
      Cd * A * Pup *
        Real.sqrt ((k * M) / (Z * Rgas * Tup) *
          (2 / (k + 1)) ^ ((k + 1) / (k - 1))), sChoked⟩
  else
    ⟨if A = 0 then 0 else
      Cd * A * Pup *
        Real.sqrt ((2 * M) / (Z * Rgas * Tup) * (k / (k - 1)) *
          max 0 ((Pdown / Pup) ^ ((2 : ℝ) / k) -
            (Pdown / Pup) ^ ((k + 1) / k))), sSubsonic⟩

/-- The choked closed form and the subsonic closed form coincide at the
critical ratio (pure part, before the common gas factor). -/
theorem boundary_identity (k : ℝ) (hk : 1 < k) :
    k * (2 / (k + 1)) ^ ((k + 1) / (k - 1)) =
      2 * (k / (k - 1)) *
        max 0 ((rCritical k) ^ ((2 : ℝ) / k) -
          (rCritical k) ^ ((k + 1) / k)) := by
  have hk0 : (0 : ℝ) < k := by linarith
  have hkm : k - 1 ≠ 0 := by intro h; linarith [sub_eq_zero.mp h]
  have hkp : (0 : ℝ) < k + 1 := by linarith
  set c : ℝ := 2 / (k + 1) with hc
  have hcpos : 0 < c := by rw [hc]; positivity
  have hc1 : c < 1 := by
    rw [hc, div_lt_one hkp]
    linarith
  have h2k : k / (k - 1) * (2 / k) = 2 / (k - 1) := by
    field_simp
    ring
  have hke : k / (k - 1) * ((k + 1) / k) = (k + 1) / (k - 1) := by
    field_simp
    ring
  have e1 : (rCritical k) ^ ((2 : ℝ) / k) = c ^ ((2 : ℝ) / (k - 1)) := by
    rw [rCritical, ← hc, ← Real.rpow_mul hcpos.le, h2k]
  have e2 : (rCritical k) ^ ((k + 1) / k) = c ^ ((k + 1) / (k - 1)) := by
    rw [rCritical, ← hc, ← Real.rpow_mul hcpos.le, hke]
  have e3 : c ^ ((k + 1) / (k - 1)) = c ^ ((2 : ℝ) / (k - 1)) * c := by
    have hsplit : (k + 1) / (k - 1) = 2 / (k - 1) + 1 := by
      field_simp
      ring
    rw [hsplit, Real.rpow_add hcpos, Real.rpow_one]
  have hbr : c ^ ((2 : ℝ) / (k - 1)) - c ^ ((k + 1) / (k - 1)) =
      c ^ ((2 : ℝ) / (k - 1)) * (1 - c) := by
    rw [e3]
    ring
  have hbrpos : 0 ≤ c ^ ((2 : ℝ) / (k - 1)) - c ^ ((k + 1) / (k - 1)) := by
    rw [hbr]
    apply mul_nonneg (Real.rpow_nonneg hcpos.le _)
    linarith
  rw [e1, e2, max_eq_right hbrpos, hbr, e3, hc]
  field_simp
  ring

/-- Claim C5: with valid gas parameters and high-to-low flow direction,
the emitted regime is choked exactly when r is at most the critical ratio
and subsonic exactly when it exceeds it, and the mass flow rate is
continuous at the boundary: at r equal to the critical ratio the choked
and subsonic closed forms agree. -/
theorem claim5_regime_continuity (Cd A Pup Pdown Tup Z k M : ℝ)
    (hk : 1 < k) (_hZ : 0 < Z) (_hM : 0 < M) (_hT : 0 < Tup)
    (_hPu : 0 < Pup) (_hPd : 0 ≤ Pdown) (hle : Pdown ≤ Pup) :
    ((evaluateFlow Cd A Pup Pdown Tup Z k M).regime = sChoked ↔
      Pdown / Pup ≤ rCritical k) ∧
    ((evaluateFlow Cd A Pup Pdown Tup Z k M).regime = sSubsonic ↔
      rCritical k < Pdown / Pup) ∧
    Cd * A * Pup * Real.sqrt ((k * M) / (Z * Rgas * Tup) *
        (2 / (k + 1)) ^ ((k + 1) / (k - 1))) =
      Cd * A * Pup * Real.sqrt ((2 * M) / (Z * Rgas * Tup) * (k / (k - 1)) *
        max 0 ((rCritical k) ^ ((2 : ℝ) / k) -
          (rCritical k) ^ ((k + 1) / k))) := by
  have hargs : (k * M) / (Z * Rgas * Tup) *
      (2 / (k + 1)) ^ ((k + 1) / (k - 1)) =
      (2 * M) / (Z * Rgas * Tup) * (k / (k - 1)) *
        max 0 ((rCritical k) ^ ((2 : ℝ) / k) -
          (rCritical k) ^ ((k + 1) / k)) := by
    have hpure := boundary_identity k hk
    linear_combination (M / (Z * Rgas * Tup)) * hpure
  refine ⟨?_, ?_, by rw [hargs]⟩
  · unfold evaluateFlow
    rw [if_neg (not_lt.mpr hle)]
    by_cases hr : Pdown / Pup ≤ rCritical k
    · rw [if_pos hr]
      exact ⟨fun _ => hr, fun _ => rfl⟩
    · rw [if_neg hr]
      have hne : sSubsonic ≠ sChoked := by decide
      exact ⟨fun hcon => absurd hcon hne, fun hcon => absurd hcon hr⟩
  · unfold evaluateFlow
    rw [if_neg (not_lt.mpr hle)]
    by_cases hr : Pdown / Pup ≤ rCritical k
    · rw [if_pos hr]
      have hne : sChoked ≠ sSubsonic := by decide
      exact ⟨fun hcon => absurd hcon hne,
        fun hcon => absurd hcon (not_lt.mpr hr)⟩
    · rw [if_neg hr]
      exact ⟨fun _ => lt_of_not_le hr, fun _ => rfl⟩

/-- Witness for C5 with air-like k over a full pressure drop. -/
theorem claim5_regime_continuity_witness :
    ((evaluateFlow 1 1 1 0 1 1 2 1).regime = sChoked ↔
      (0 : ℝ) / 1 ≤ rCritical 2) ∧
    ((evaluateFlow 1 1 1 0 1 1 2 1).regime = sSubsonic ↔
      rCritical 2 < (0 : ℝ) / 1) ∧
    (1 : ℝ) * 1 * 1 * Real.sqrt ((2 * 1) / (1 * Rgas * 1) *
        (2 / (2 + 1)) ^ ((2 + 1) / (2 - 1) : ℝ)) =
      1 * 1 * 1 * Real.sqrt ((2 * 1) / (1 * Rgas * 1) * (2 / (2 - 1)) *
        max 0 ((rCritical 2) ^ ((2 : ℝ) / 2) -
          (rCritical 2) ^ ((2 + 1) / 2 : ℝ))) :=
  claim5_regime_continuity 1 1 1 0 1 1 2 1 (by norm_num) (by norm_num)
    (by norm_num) (by norm_num) (by norm_num) (by norm_num) (by norm_num)

/-- Modelled from the spec (section 4.1): the linear opening profile,
clamped to the unit interval; missing source: the backend ValveProfile. -/
def linearFraction (t topen : ℝ) : ℝ := min 1 (max 0 (t / topen))

/-- Modelled from the spec (section 4.2): effective flow area is bore
area times opening fraction. -/
def effectiveArea (bore fraction : ℝ) : ℝ := bore * fraction

/-- Claim C6: when the opening fraction is zero (for example at t = 0
under the linear profile), the computed mass flow rate is exactly zero:
the zero-area guard short-circuits before the square root (the flow
correlation) is evaluated, so no NaN can arise. -/
theorem claim6_zero_opening (Cd bore Pup Pdown Tup Z k M topen : ℝ) :
    linearFraction 0 topen = 0 ∧
    (evaluateFlow Cd (effectiveArea bore (linearFraction 0 topen))
      Pup Pdown Tup Z k M).mdot = 0 := by
  have h0 : linearFraction 0 topen = 0 := by
    unfold linearFraction
    rw [zero_div]
    simp
  refine ⟨h0, ?_⟩
  rw [h0]
  unfold evaluateFlow effectiveArea
  rw [mul_zero]
  split
  · rfl
  · split <;> simp

end

/-! ## Property provider — spec-modelled

The backend property provider (thermo/Peng-Robinson) is not in the
repository snapshot; only the composition-sum validation matters for the
claims, so the equation of state itself is a parameter. -/

inductive PropError
  | compositionError
  | conditionError
deriving DecidableEq

/-- Modelled from the spec (sections 6 and 8): properties(composition, P,
T) fails with CompositionError when the mole fractions do not sum to
approximately 1, and otherwise returns the EOS result; missing source:
the backend PropertyProvider.  The ~1 tolerance is taken as the 0.001
gate the composition editor uses. -/
def properties (eos : List (String × ℚ) → ℚ → ℚ → ℚ × ℚ × ℚ)
    (comp : List (String × ℚ)) (pres temp : ℚ) :
    Except PropError (ℚ × ℚ × ℚ) :=
  if |(comp.map (·.2)).sum - 1| ≤ 1 / 1000 then .ok (eos comp pres temp)
  else .error .compositionError

/-- Claim C7: a composition whose mole fractions do not sum to
approximately 1 fails with a fatal CompositionError; no silently
renormalized result is ever returned. -/
theorem claim7_bad_composition
    (eos : List (String × ℚ) → ℚ → ℚ → ℚ × ℚ × ℚ)
    (comp : List (String × ℚ)) (pres temp : ℚ)
    (h : ¬ |(comp.map (·.2)).sum - 1| ≤ 1 / 1000) :
    properties eos comp pres temp = .error .compositionError ∧
    ∀ out, properties eos comp pres temp ≠ .ok out := by
  have he : properties eos comp pres temp = .error .compositionError := by
    unfold properties
    rw [if_neg h]
  refine ⟨he, fun out hok => ?_⟩
  rw [he] at hok
  exact Except.noConfusion hok

def methane : String := "Methane"

def eosConst : List (String × ℚ) → ℚ → ℚ → ℚ × ℚ × ℚ :=
  fun _ _ _ => (1, 7 / 5, 29 / 1000)

/-- Witness for C7: pure methane entered at fraction 0.5. -/
theorem claim7_bad_composition_witness :
    properties eosConst [(methane, 1/2)] 500 70 =
      .error .compositionError ∧
    ∀ out, properties eosConst [(methane, 1/2)] 500 70 ≠ .ok out :=
  claim7_bad_composition eosConst [(methane, 1/2)] 500 70
    (by norm_num; rw [abs_of_pos] <;> norm_num)

end Pressurize
